import Mathlib

/-!
# redisbench: percentile engine, sample log, load driver and settlement

A shallow embedding of `main.go` and `statreader/statreader.go`.

Conventions of the embedding:

* `Percentile` is embedded twice: as `Percentile64` over float64 values (IEEE 754
  binary64: rounding to nearest even, overflow to the infinities, NaN) and as
  `Percentile` in exact rational arithmetic, the reading in which monotonicity in
  `p` and the index bounds are stated;
* in the sample log a `float64` sample is its 64-bit IEEE pattern, a natural
  number below `2^64` (the log stores bit patterns only);
* a run-time panic (index out of range, integer division by zero) is an error
  value of `Except`;
* the store, the liveness ping and the clock are outside the program: their
  answers are parameters of the functions that consume them;
* Go `int` is the 64-bit two's-complement integer of the supported platforms.
-/

set_option autoImplicit false

namespace statreader

/-- The run-time panic `index out of range [index] with length length`. -/
structure IndexError where
  index : ℤ
  length : ℕ
deriving DecidableEq

/-- Go's conversion `int(k)` of a float: truncation toward zero. -/
def goTrunc (k : ℚ) : ℤ := if 0 ≤ k then ⌊k⌋ else ⌈k⌉

/-- The bounds-checked slice read `numbers[i]`. -/
def index (numbers : List ℚ) (i : ℤ) : Except IndexError ℚ :=
  if 0 ≤ i ∧ i < (numbers.length : ℤ) then .ok (numbers.getD i.toNat 0)
  else .error ⟨i, numbers.length⟩

/-- The value `k := (percentile / 100) * float64(len(numbers)-1)` for a slice of length `n`. -/
def percentileK (n : ℕ) (percentile : ℚ) : ℚ :=
  (percentile / 100) * (((n : ℤ) - 1 : ℤ) : ℚ)

/-- The function `Percentile` of `statreader.go` with its arithmetic read exactly, over
the rationals. -/
def Percentile (numbers : List ℚ) (percentile : ℚ) : Except IndexError ℚ :=
  let k : ℚ := percentileK numbers.length percentile
  let f : ℤ := goTrunc k
  let c : ℚ := k - (f : ℚ)
  if f + 1 < (numbers.length : ℤ) then
    match index numbers f, index numbers (f + 1) with
    | .ok a, .ok b => .ok (a + c * (b - a))
    | .error e, _ => .error e
    | .ok _, .error e => .error e
  else
    index numbers f

/-- The slice indices `Percentile` reads, in evaluation order: `f, f+1, f` on the
interpolating branch and `f` on the other. -/
def PercentileReads (numbers : List ℚ) (percentile : ℚ) : List ℤ :=
  let f : ℤ := goTrunc (percentileK numbers.length percentile)
  if f + 1 < (numbers.length : ℤ) then [f, f + 1, f] else [f]

/-- The function `minMax` of `statreader.go`. -/
def minMax (numbers : List ℚ) : ℚ × ℚ :=
  if numbers.length = 0 then (-1, -1)
  else (numbers.getD 0 0, numbers.getD (numbers.length - 1) 0)

/-- The five figures a report line prints. -/
structure Stats where
  p90 : ℚ
  p95 : ℚ
  p99 : ℚ
  min : ℚ
  max : ℚ
deriving DecidableEq

/-- The function `PercentileCal` of `statreader.go` after the numbers have been read
and sorted: what it hands to the logger, or the panic that stops it. -/
def PercentileCal (numbers : List ℚ) : Except IndexError Stats :=
  let mm := minMax numbers
  match Percentile numbers 90 with
  | .error e => .error e
  | .ok p90 =>
    match Percentile numbers 95 with
    | .error e => .error e
    | .ok p95 =>
      match Percentile numbers 99 with
      | .error e => .error e
      | .ok p99 => .ok ⟨p90, p95, p99, mm.1, mm.2⟩

/-- Linear interpolation of a list at a non-negative real position `k`: the closed
form of `Percentile` inside the slice. Used in proofs only. -/
def lerpAt (S : List ℚ) (k : ℚ) : ℚ :=
  if ⌊k⌋.toNat + 1 < S.length then
    S.getD ⌊k⌋.toNat 0
      + (k - ((⌊k⌋.toNat : ℕ) : ℚ)) * (S.getD (⌊k⌋.toNat + 1) 0 - S.getD ⌊k⌋.toNat 0)
  else S.getD ⌊k⌋.toNat 0

end statreader

namespace statreader

/-! ### float64 arithmetic

The values and the operations of IEEE 754 binary64 that `Percentile` uses, rounding to
nearest, ties to even. The two zeros are one value, as they are under Go's `==`;
`Percentile` divides by the constant 100 only, so no operation on its path tells them
apart. -/

/-- A float64 value: a finite one, by the rational number it denotes, an infinity or
NaN. -/
inductive F64 where
  | finite (q : ℚ)
  | posInf
  | negInf
  | nan
deriving DecidableEq

/-- Rounding of a rational to the nearest integer, ties to the even one. -/
def roundHalfEven (m : ℚ) : ℤ :=
  if m - ⌊m⌋ < 1 / 2 then ⌊m⌋
  else if 1 / 2 < m - ⌊m⌋ then ⌊m⌋ + 1
  else if ⌊m⌋ % 2 = 0 then ⌊m⌋ else ⌊m⌋ + 1

/-- The spacing of binary64 around a positive `q`: `2^(e-52)` for `2^e ≤ q < 2^(e+1)`,
and `2^(-1074)` below the normal range. -/
def ulp (q : ℚ) : ℚ := (2 : ℚ) ^ (max (Int.log 2 q) (-1022) - 52)

/-- Rounding of a positive rational to the binary64 grid, exponent range unbounded
above. -/
def roundMag (q : ℚ) : ℚ := (roundHalfEven (q / ulp q) : ℚ) * ulp q

/-- Rounding of a rational to the binary64 grid, by sign and magnitude. -/
def roundQ (q : ℚ) : ℚ :=
  if q = 0 then 0 else if 0 < q then roundMag q else -roundMag (-q)

/-- The float64 result of an operation whose exact value is `q`: the rounded value, or
an infinity when it reaches `2^1024`. -/
def F64.round (q : ℚ) : F64 :=
  if (2 : ℚ) ^ 1024 ≤ roundQ q then .posInf
  else if roundQ q ≤ -(2 : ℚ) ^ 1024 then .negInf
  else .finite (roundQ q)

/-- Negation. -/
def F64.neg : F64 → F64
  | .finite a => .finite (-a)
  | .posInf => .negInf
  | .negInf => .posInf
  | .nan => .nan

/-- Addition. -/
def F64.add : F64 → F64 → F64
  | .nan, _ => .nan
  | _, .nan => .nan
  | .posInf, .negInf => .nan
  | .negInf, .posInf => .nan
  | .posInf, _ => .posInf
  | _, .posInf => .posInf
  | .negInf, _ => .negInf
  | _, .negInf => .negInf
  | .finite a, .finite b => F64.round (a + b)

/-- Subtraction. -/
def F64.sub (x y : F64) : F64 := F64.add x (F64.neg y)

/-- The product of an infinity of sign `neg` and a finite `a`. -/
def F64.infTimes (neg : Bool) (a : ℚ) : F64 :=
  if a = 0 then .nan
  else if 0 < a then (if neg then .negInf else .posInf)
  else (if neg then .posInf else .negInf)

/-- Multiplication. -/
def F64.mul : F64 → F64 → F64
  | .nan, _ => .nan
  | _, .nan => .nan
  | .finite a, .finite b => F64.round (a * b)
  | .finite a, .posInf => F64.infTimes false a
  | .finite a, .negInf => F64.infTimes true a
  | .posInf, .finite b => F64.infTimes false b
  | .negInf, .finite b => F64.infTimes true b
  | .posInf, .posInf => .posInf
  | .negInf, .negInf => .posInf
  | .posInf, .negInf => .negInf
  | .negInf, .posInf => .negInf

/-- The fused multiply-add `x*y + z`: the exact product and sum, rounded once. With an
infinite or NaN operand nothing is rounded. -/
def F64.fma (x y z : F64) : F64 :=
  match x, y, z with
  | .finite a, .finite b, .finite c => F64.round (a * b + c)
  | .finite _, .finite _, z => z
  | x, y, z => F64.add (F64.mul x y) z

/-- Division by the constant `100`. -/
def F64.div100 : F64 → F64
  | .finite a => F64.round (a / 100)
  | .posInf => .posInf
  | .negInf => .negInf
  | .nan => .nan

/-- The conversion `float64(n)` of an integer. -/
def F64.ofInt (n : ℤ) : F64 := F64.round (n : ℚ)

/-- The conversion `int(k)`: truncation toward zero when the result fits 64 bits. Go
leaves the result implementation-dependent otherwise (`none`). -/
def F64.toInt : F64 → Option ℤ
  | .finite q =>
    if -(2 : ℤ) ^ 63 ≤ goTrunc q ∧ goTrunc q < (2 : ℤ) ^ 63 then some (goTrunc q) else none
  | _ => none

/-- How a call of `Percentile` on float64 values can fail to give a value. -/
inductive Fault where
  | indexOutOfRange (index : ℤ) (length : ℕ)
  | conversionOutOfRange
deriving DecidableEq

/-- The bounds-checked slice read `numbers[i]` on float64 values. -/
def index64 (numbers : List F64) (i : ℤ) : Except Fault F64 :=
  if 0 ≤ i ∧ i < (numbers.length : ℤ) then .ok (numbers.getD i.toNat .nan)
  else .error (.indexOutOfRange i numbers.length)

/-- The function `Percentile` of `statreader.go` in float64 arithmetic. Go lets a
compiler fuse `numbers[f] + c*(...)` into one multiply-add; `fused` tells whether it
did. -/
def Percentile64 (fused : Bool) (numbers : List F64) (percentile : F64) : Except Fault F64 :=
  let k : F64 := F64.mul (F64.div100 percentile) (F64.ofInt ((numbers.length : ℤ) - 1))
  match F64.toInt k with
  | none => .error .conversionOutOfRange
  | some f =>
    let c : F64 := F64.sub k (F64.ofInt f)
    if f + 1 < (numbers.length : ℤ) then
      match index64 numbers f, index64 numbers (f + 1) with
      | .ok a, .ok b =>
        if fused then .ok (F64.fma c (F64.sub b a) a)
        else .ok (F64.add a (F64.mul c (F64.sub b a)))
      | .error e, _ => .error e
      | .ok _, .error e => .error e
    else
      index64 numbers f

end statreader

namespace redisbench

/-- The 8 bytes `binary.LittleEndian` stores for the 64-bit pattern `v`:
byte `j` is `byte(v >> (8*j))`. -/
def PutUint64 (v : ℕ) : List ℕ :=
  [v % 256, v / 2 ^ 8 % 256, v / 2 ^ 16 % 256, v / 2 ^ 24 % 256,
   v / 2 ^ 32 % 256, v / 2 ^ 40 % 256, v / 2 ^ 48 % 256, v / 2 ^ 56 % 256]

/-- The 64-bit pattern `binary.LittleEndian` reads from 8 bytes:
`b[0] | b[1]<<8 | ... | b[7]<<56` in `uint64` arithmetic. -/
def Uint64 (b : List ℕ) : ℕ :=
  (b.getD 0 0 + b.getD 1 0 * 2 ^ 8 + b.getD 2 0 * 2 ^ 16 + b.getD 3 0 * 2 ^ 24
    + b.getD 4 0 * 2 ^ 32 + b.getD 5 0 * 2 ^ 40 + b.getD 6 0 * 2 ^ 48
    + b.getD 7 0 * 2 ^ 56) % 2 ^ 64

/-- The call `binary.Write(file, binary.LittleEndian, arr)` on a file opened with
`O_APPEND`, when the write succeeds (a failed write panics): the encodings of the
samples of `arr`, in order, go to the end. -/
def binaryWrite (file : List ℕ) (arr : List ℕ) : List ℕ :=
  file ++ (arr.map PutUint64).flatten

/-- The function `fileWriter` of `main.go`: `arrChan` is the sequence of batches in the
order the single consumer receives them from the channel. -/
def fileWriter (arrChan : List (List ℕ)) (file : List ℕ) : List ℕ :=
  arrChan.foldl binaryWrite file

/-- The call `binary.Read(file, binary.LittleEndian, &data)` for a slice of `numFloats`
elements: consecutive 8-byte groups, decoded in order. -/
def binaryRead : ℕ → List ℕ → List ℕ
  | 0, _ => []
  | numFloats + 1, file => Uint64 (file.take 8) :: binaryRead numFloats (file.drop 8)

/-- The slice `data` of `fileReader` after `binary.Read` and before `sort.Float64s`:
`numFloats := fileInfo.Size() / 8` values. -/
def fileReaderData (file : List ℕ) : List ℕ :=
  binaryRead (file.length / 8) file

end redisbench

namespace redisbench

/-! ### Load driver: the three workers -/

/-- The constant `keyPrefix` of `main.go`. -/
def keyPrefix : String := "benchmark-set"

/-- The key of operation `i` of worker `id`: `fmt.Sprintf("%s.%d.%d", keyPrefix, id, i)`. -/
def key (id i : ℕ) : String :=
  keyPrefix ++ "." ++ toString id ++ "." ++ toString i

/-- A call on the store client. -/
inductive StoreOp where
  | Set (key val : String)
  | Get (key : String)
  | Del (key : String)
deriving DecidableEq

/-- The key a store call addresses. -/
def StoreOp.key : StoreOp → String
  | .Set k _ => k
  | .Get k => k
  | .Del k => k

/-- A non-nil Go `error`, by its message. The nil error is `none : Option Err`. -/
abbrev Err := String

/-- What `utils.FatalErr` does to the calling goroutine. -/
inductive Flow where
  | proceed
  | exit (err : Err)
deriving DecidableEq

/-- Modelled from the spec: `utils.FatalErr`, whose package `utils` is not among the
sources. "On any operation error, the run fails fast: the error is fatal to the
process"; "aborts the process immediately; no partial result is reported, no retry is
attempted". A nil error lets the caller go on. -/
def FatalErr (err : Option Err) : Flow :=
  match err with
  | none => .proceed
  | some e => .exit e

/-- What one worker goroutine did: the store calls it issued, in order, each with the
error the store answered (`none` for nil), and the error that ended the process in
`utils.FatalErr`, if one did. The measured latencies and their hand-over on `arrChan`
are wall-clock data and are left out. -/
structure WorkerRun where
  calls : List (StoreOp × Option Err)
  fatal : Option Err
deriving DecidableEq

/-- The keys a worker addressed, in order. -/
def WorkerRun.keys (r : WorkerRun) : List String :=
  r.calls.map (fun c => c.1.key)

/-- The loop of `executeSet` from index `i` with `n` iterations left; `resp j` is the
error the store answers to the call of index `j`. -/
def executeSetLoop (id : ℕ) (val : String) (resp : ℕ → Option Err) :
    ℕ → ℕ → List (StoreOp × Option Err) → WorkerRun
  | 0, _, calls => ⟨calls, none⟩
  | n + 1, i, calls =>
    let err := resp i
    match FatalErr err with
    | .exit e => ⟨calls ++ [(StoreOp.Set (key id i) val, err)], some e⟩
    | .proceed => executeSetLoop id val resp n (i + 1) (calls ++ [(StoreOp.Set (key id i) val, err)])

/-- The function `executeSet` of `main.go`; `val` is the payload `utils.RandSeq(size)`. -/
def executeSet (id times : ℕ) (val : String) (resp : ℕ → Option Err) : WorkerRun :=
  executeSetLoop id val resp times 0 []

/-- The loop of `executeGet` from index `i` with `n` iterations left. -/
def executeGetLoop (id : ℕ) (resp : ℕ → Option Err) :
    ℕ → ℕ → List (StoreOp × Option Err) → WorkerRun
  | 0, _, calls => ⟨calls, none⟩
  | n + 1, i, calls =>
    let err := resp i
    match FatalErr err with
    | .exit e => ⟨calls ++ [(StoreOp.Get (key id i), err)], some e⟩
    | .proceed => executeGetLoop id resp n (i + 1) (calls ++ [(StoreOp.Get (key id i), err)])

/-- The function `executeGet` of `main.go`. -/
def executeGet (id times : ℕ) (resp : ℕ → Option Err) : WorkerRun :=
  executeGetLoop id resp times 0 []

/-- The loop of `executeDel` from index `i` with `n` iterations left: the result of
`redisClient.Del` is discarded. -/
def executeDelLoop (id : ℕ) (resp : ℕ → Option Err) :
    ℕ → ℕ → List (StoreOp × Option Err) → WorkerRun
  | 0, _, calls => ⟨calls, none⟩
  | n + 1, i, calls =>
    executeDelLoop id resp n (i + 1) (calls ++ [(StoreOp.Del (key id i), resp i)])

/-- The function `executeDel` of `main.go`. -/
def executeDel (id times : ℕ) (resp : ℕ → Option Err) : WorkerRun :=
  executeDelLoop id resp times 0 []

/-! ### Read endpoints -/

/-- A client built by `redis.NewUniversalClient` for one address. -/
structure Client where
  Addrs : List String
deriving DecidableEq

/-- The loop of `createReadClients` over the remaining addresses; `ping addr` tells
whether `client.Ping` returned a nil error. A failed ping returns nil at once. -/
def createReadClientsLoop (ping : String → Bool) : List String → List Client → List Client
  | [], clients => clients
  | addr :: rest, clients =>
    if ping addr = false then []
    else createReadClientsLoop ping rest (clients ++ [⟨[addr]⟩])

/-- The function `createReadClients` of `main.go`; `addrArr` is
`strings.Split(config.ReadClientAddrs, ",")`. -/
def createReadClients (addrArr : List String) (ping : String → Bool) : List Client :=
  createReadClientsLoop ping addrArr []

/-- A run-time panic of `main`. -/
inductive Panic where
  | divideByZero
deriving DecidableEq

/-- The read loop of `main`: worker `i` gets `readClients[i % l]`. With no client the
first `i % l` panics. -/
def readPhase (ClientNum TestTimes : ℕ) (readClients : List Client)
    (resp : ℕ → ℕ → Option Err) : Except Panic (List (Client × WorkerRun)) :=
  match readClients with
  | [] => if ClientNum = 0 then .ok [] else .error .divideByZero
  | c :: cs =>
    .ok ((List.range ClientNum).map fun i =>
      ((c :: cs).getD (i % (c :: cs).length) c, executeGet i TestTimes (resp i)))

/-- The write loop of `main`: one `executeSet` per worker id. -/
def writePhase (ClientNum TestTimes : ℕ) (val : ℕ → String)
    (resp : ℕ → ℕ → Option Err) : List WorkerRun :=
  (List.range ClientNum).map fun i => executeSet i TestTimes (val i) (resp i)

/-- The delete loop of `main`: one `executeDel` per worker id. -/
def deletePhase (ClientNum TestTimes : ℕ) (resp : ℕ → ℕ → Option Err) : List WorkerRun :=
  (List.range ClientNum).map fun i => executeDel i TestTimes (resp i)

/-- All keys a list of worker runs addressed. -/
def phaseKeys (runs : List WorkerRun) : List String :=
  (runs.map WorkerRun.keys).flatten

/-! ### Node results and reporting -/

/-- Two's-complement wrap-around of a 64-bit signed integer operation. -/
def wrapInt64 (x : ℤ) : ℤ := (x + 2 ^ 63) % 2 ^ 64 - 2 ^ 63

/-- The value `totalTimes := int64(config.ClientNum * config.TestTimes)`. -/
def totalTimes (ClientNum TestTimes : ℤ) : ℤ :=
  wrapInt64 (wrapInt64 (ClientNum * TestTimes))

/-- The struct `models.NodeResult` as `main` fills it; instants and durations are
nanosecond counts. -/
structure NodeResult where
  Order : ℤ
  TotalTimes : ℤ
  TsBeg : ℤ
  TsEnd : ℤ
  TotalDur : ℤ
deriving DecidableEq

/-- The fields of `tester.Multi` that `main` reads. -/
structure MultiNode where
  Order : ℤ
  IsMaster : Bool
deriving DecidableEq

/-- The variable `result` of `main`: the write-phase NodeResult, with `dur := t2.Sub(t1)`. -/
def result (ClientNum TestTimes : ℤ) (Multi : Option MultiNode) (t1 t2 : ℤ) : NodeResult :=
  let order := match Multi with
    | none => 1
    | some m => m.Order
  ⟨order, totalTimes ClientNum TestTimes, t1, t2, t2 - t1⟩

/-- The variable `resultRead` of `main`: the read-phase NodeResult, with
`durRead := t4.Sub(t3)`. -/
def resultRead (ClientNum TestTimes : ℤ) (Multi : Option MultiNode) (t3 t4 : ℤ) : NodeResult :=
  let order := match Multi with
    | none => 1
    | some m => m.Order
  ⟨order, totalTimes ClientNum TestTimes, t3, t4, t4 - t3⟩

/-- What the reporting branch of `main` does, call by call. -/
inductive Report where
  | logWriteResult (r : NodeResult)
  | logReadResult (r : NodeResult)
  | NoticeMasterSettle (r : NodeResult)
  | logSeeSummary
  | WgAdd
  | NodeSettle (r : NodeResult)
  | WgWait
  | Sleep
  | Summary
  | logSummary
deriving DecidableEq

/-- The `if tester.Multi == nil ... else ...` block of `main`. -/
def report (Multi : Option MultiNode) (result resultRead : NodeResult) : List Report :=
  match Multi with
  | none => [.logWriteResult result, .logReadResult resultRead]
  | some m =>
    if !m.IsMaster then [.NoticeMasterSettle result, .logSeeSummary]
    else [.WgAdd, .NodeSettle result, .WgWait, .Sleep, .Summary, .logSummary]

/-- The NodeResults a node transmitted to the master. -/
def transmitted : List Report → List NodeResult
  | [] => []
  | .NoticeMasterSettle r :: t => r :: transmitted t
  | _ :: t => transmitted t

/-- The NodeResults the master settled for itself. -/
def selfSettled : List Report → List NodeResult
  | [] => []
  | .NodeSettle r :: t => r :: selfSettled t
  | _ :: t => selfSettled t

/-- How many summaries were computed. -/
def summaries : List Report → ℕ
  | [] => 0
  | .Summary :: t => summaries t + 1
  | _ :: t => summaries t

/-! ### Settlement on the master -/

/-- The struct the master prints: `TotalTimes`, `TotalDur` (nanoseconds), `TPS`. -/
structure SummaryResult where
  TotalTimes : ℤ
  TotalDur : ℤ
  TPS : ℤ
deriving DecidableEq

/-- Modelled from the spec: `tester.Multi.NodeSettle` and the settle RPC, whose package
`tester` is not among the sources. A settle call adds the NodeResult it carries to the
results the master holds for the phase, in arrival order. -/
def NodeSettle (settled : List NodeResult) (r : NodeResult) : List NodeResult :=
  settled ++ [r]

/-- The earliest `TsBeg` of a list of results (`0` for none). -/
def minTsBeg : List NodeResult → ℤ
  | [] => 0
  | r :: rs => rs.foldl (fun acc x => min acc x.TsBeg) r.TsBeg

/-- The latest `TsEnd` of a list of results (`0` for none). -/
def maxTsEnd : List NodeResult → ℤ
  | [] => 0
  | r :: rs => rs.foldl (fun acc x => max acc x.TsEnd) r.TsEnd

/-- Modelled from the spec: `tester.Multi.Summary`, whose package `tester` is not among
the sources. "sum of totalOperations, min of windowStart, max of windowEnd, duration =
max(windowEnd) − min(windowStart), throughputPerSecond = round(totalOperations /
duration-in-seconds)". The spec gives no value for a zero duration; the quotient of
`ℚ` makes it `0`. -/
def Summary (settled : List NodeResult) : SummaryResult :=
  let total : ℤ := (settled.map NodeResult.TotalTimes).sum
  let dur : ℤ := maxTsEnd settled - minTsBeg settled
  ⟨total, dur, round ((total : ℚ) / ((dur : ℚ) / 1000000000))⟩

end redisbench

namespace statreader

theorem sorted_getD_le (S : List ℚ) (hs : S.Sorted (· ≤ ·)) (i j : ℕ) (hij : i ≤ j)
    (hj : j < S.length) : S.getD i 0 ≤ S.getD j 0 := by
  have hi : i < S.length := lt_of_le_of_lt hij hj
  rw [List.getD_eq_getElem _ _ hi, List.getD_eq_getElem _ _ hj]
  rcases Nat.eq_or_lt_of_le hij with h | h
  · subst h; exact le_refl _
  · exact (List.pairwise_iff_getElem.mp hs) i j hi hj h

theorem percentileK_nonneg (n : ℕ) (hn : 1 ≤ n) (p : ℚ) (h0 : 0 ≤ p) : 0 ≤ percentileK n p := by
  unfold percentileK
  have h1 : (0 : ℚ) ≤ (((n : ℤ) - 1 : ℤ) : ℚ) := by
    have : (0 : ℤ) ≤ (n : ℤ) - 1 := by omega
    exact_mod_cast this
  positivity

theorem percentileK_le (n : ℕ) (hn : 1 ≤ n) (p : ℚ) (h100 : p ≤ 100) :
    percentileK n p ≤ (((n : ℤ) - 1 : ℤ) : ℚ) := by
  unfold percentileK
  have h1 : (0 : ℚ) ≤ (((n : ℤ) - 1 : ℤ) : ℚ) := by
    have : (0 : ℤ) ≤ (n : ℤ) - 1 := by omega
    exact_mod_cast this
  have h2 : p / 100 ≤ 1 := by linarith
  calc p / 100 * (((n : ℤ) - 1 : ℤ) : ℚ) ≤ 1 * (((n : ℤ) - 1 : ℤ) : ℚ) :=
        mul_le_mul_of_nonneg_right h2 h1
    _ = _ := one_mul _

theorem percentileK_mono (n : ℕ) (hn : 1 ≤ n) (p1 p2 : ℚ) (h : p1 ≤ p2) :
    percentileK n p1 ≤ percentileK n p2 := by
  unfold percentileK
  have h1 : (0 : ℚ) ≤ (((n : ℤ) - 1 : ℤ) : ℚ) := by
    have : (0 : ℤ) ≤ (n : ℤ) - 1 := by omega
    exact_mod_cast this
  have h2 : p1 / 100 ≤ p2 / 100 := by linarith
  exact mul_le_mul_of_nonneg_right h2 h1

theorem goTrunc_bounds (n : ℕ) (hn : 1 ≤ n) (k : ℚ) (h0 : 0 ≤ k)
    (hk : k ≤ (((n : ℤ) - 1 : ℤ) : ℚ)) :
    goTrunc k = ⌊k⌋ ∧ 0 ≤ ⌊k⌋ ∧ ⌊k⌋ ≤ (n : ℤ) - 1 := by
  refine ⟨by simp [goTrunc, h0], Int.floor_nonneg.mpr h0, ?_⟩
  have := Int.floor_le k
  have h3 : ((⌊k⌋ : ℤ) : ℚ) ≤ (((n : ℤ) - 1 : ℤ) : ℚ) := le_trans this hk
  exact_mod_cast h3

theorem Percentile_eq_lerpAt (S : List ℚ) (hn : 1 ≤ S.length) (p : ℚ) (h0 : 0 ≤ p)
    (h100 : p ≤ 100) : Percentile S p = .ok (lerpAt S (percentileK S.length p)) := by
  obtain ⟨ht, hf0, hfn⟩ := goTrunc_bounds S.length hn _ (percentileK_nonneg _ hn p h0)
    (percentileK_le _ hn p h100)
  unfold Percentile lerpAt
  simp only [ht]
  set k := percentileK S.length p
  obtain ⟨m, hm⟩ := Int.eq_ofNat_of_zero_le hf0
  have hmn : m < S.length := by omega
  simp only [hm, Int.toNat_ofNat]
  by_cases h : m + 1 < S.length
  · have h' : (m : ℤ) + 1 < (S.length : ℤ) := by omega
    have i1 : index S (m : ℤ) = .ok (S.getD m 0) := by simp [index, hmn]
    have i2 : index S ((m : ℤ) + 1) = .ok (S.getD (m + 1) 0) := by
      unfold index
      rw [if_pos ⟨by omega, h'⟩]
      have e : ((m : ℤ) + 1).toNat = m + 1 := by omega
      rw [e]
    simp only [if_pos h', if_pos h, i1, i2]
    simp
  · have h' : ¬ ((m : ℤ) + 1 < (S.length : ℤ)) := by omega
    have i1 : index S (m : ℤ) = .ok (S.getD m 0) := by simp [index, hmn]
    simp only [if_neg h', if_neg h, i1]


theorem lerpAt_lower (S : List ℚ) (hs : S.Sorted (· ≤ ·)) (k : ℚ) (h0 : 0 ≤ k) :
    S.getD ⌊k⌋.toNat 0 ≤ lerpAt S k := by
  unfold lerpAt
  have hf0 : 0 ≤ ⌊k⌋ := Int.floor_nonneg.mpr h0
  obtain ⟨m, hm⟩ := Int.eq_ofNat_of_zero_le hf0
  have hc : (0 : ℚ) ≤ k - (m : ℚ) := by
    have := Int.floor_le k
    rw [hm] at this
    have : ((m : ℤ) : ℚ) ≤ k := this
    push_cast at this
    linarith
  simp only [hm, Int.toNat_ofNat]
  split_ifs with h
  · have := sorted_getD_le S hs m (m + 1) (Nat.le_succ m) h
    nlinarith
  · exact le_refl _

theorem lerpAt_upper (S : List ℚ) (hs : S.Sorted (· ≤ ·)) (k : ℚ) (h0 : 0 ≤ k)
    (h : ⌊k⌋.toNat + 1 < S.length) : lerpAt S k ≤ S.getD (⌊k⌋.toNat + 1) 0 := by
  unfold lerpAt
  have hf0 : 0 ≤ ⌊k⌋ := Int.floor_nonneg.mpr h0
  obtain ⟨m, hm⟩ := Int.eq_ofNat_of_zero_le hf0
  have hc : k - (m : ℚ) ≤ 1 := by
    have := Int.lt_floor_add_one k
    rw [hm] at this
    push_cast at this
    linarith
  simp only [hm, Int.toNat_ofNat] at h ⊢
  rw [if_pos h]
  have := sorted_getD_le S hs m (m + 1) (Nat.le_succ m) h
  nlinarith

theorem lerpAt_mono (S : List ℚ) (hs : S.Sorted (· ≤ ·)) (k1 k2 : ℚ) (h0 : 0 ≤ k1)
    (h12 : k1 ≤ k2) (h2 : ⌊k2⌋.toNat < S.length) : lerpAt S k1 ≤ lerpAt S k2 := by
  have h02 : 0 ≤ k2 := le_trans h0 h12
  have hfl : ⌊k1⌋ ≤ ⌊k2⌋ := Int.floor_mono h12
  have hf1 : 0 ≤ ⌊k1⌋ := Int.floor_nonneg.mpr h0
  have hf2 : 0 ≤ ⌊k2⌋ := Int.floor_nonneg.mpr h02
  rcases lt_or_eq_of_le hfl with hlt | heq
  · have hA : ⌊k1⌋.toNat + 1 ≤ ⌊k2⌋.toNat := by omega
    have hB : ⌊k1⌋.toNat + 1 < S.length := by omega
    calc lerpAt S k1 ≤ S.getD (⌊k1⌋.toNat + 1) 0 := lerpAt_upper S hs k1 h0 hB
      _ ≤ S.getD ⌊k2⌋.toNat 0 := sorted_getD_le S hs _ _ hA h2
      _ ≤ lerpAt S k2 := lerpAt_lower S hs k2 h02
  · unfold lerpAt
    rw [heq]
    split_ifs with h
    · have := sorted_getD_le S hs ⌊k2⌋.toNat (⌊k2⌋.toNat + 1) (Nat.le_succ _) h
      nlinarith
    · exact le_refl _

theorem index_nil (i : ℤ) : index [] i = .error ⟨i, 0⟩ := by
  unfold index
  rw [if_neg]
  · rfl
  · intro h
    have := h.2
    simp at this
    omega

theorem Percentile_nil (p : ℚ) :
    ∃ e : IndexError, Percentile [] p = .error e ∧ e.index = goTrunc (percentileK 0 p) := by
  unfold Percentile
  simp only [List.length_nil, index_nil]
  split_ifs
  · exact ⟨_, rfl, rfl⟩
  · exact ⟨_, rfl, rfl⟩

/-- C2: percentiles are monotone in `p`. For every ascending list and all
`0 ≤ p1 ≤ p2 ≤ 100`, any two values `Percentile` returns at `p1` and at `p2` are
ordered, and on a non-empty list it does return both. -/
theorem Percentile_monotone (S : List ℚ) (hs : S.Sorted (· ≤ ·)) (p1 p2 : ℚ)
    (h0 : 0 ≤ p1) (h12 : p1 ≤ p2) (h100 : p2 ≤ 100) :
    (∀ v1 v2 : ℚ, Percentile S p1 = .ok v1 → Percentile S p2 = .ok v2 → v1 ≤ v2) ∧
    (S ≠ [] → ∃ v1 v2 : ℚ, Percentile S p1 = .ok v1 ∧ Percentile S p2 = .ok v2 ∧ v1 ≤ v2) := by
  by_cases hne : S = []
  · subst hne
    refine ⟨?_, fun h => absurd rfl h⟩
    intro v1 v2 h1 _
    obtain ⟨e, he, _⟩ := Percentile_nil p1
    rw [he] at h1
    cases h1
  · have hn : 1 ≤ S.length := by
      cases S with
      | nil => exact absurd rfl hne
      | cons a t => simp
    have e1 := Percentile_eq_lerpAt S hn p1 h0 (le_trans h12 h100)
    have e2 := Percentile_eq_lerpAt S hn p2 (le_trans h0 h12) h100
    have hk2 := goTrunc_bounds S.length hn _ (percentileK_nonneg _ hn p2 (le_trans h0 h12))
      (percentileK_le _ hn p2 h100)
    have hle : lerpAt S (percentileK S.length p1) ≤ lerpAt S (percentileK S.length p2) :=
      lerpAt_mono S hs _ _ (percentileK_nonneg _ hn p1 h0) (percentileK_mono _ hn _ _ h12)
        (by omega)
    refine ⟨?_, fun _ => ⟨_, _, e1, e2, hle⟩⟩
    intro v1 v2 h1 h2
    rw [e1] at h1; rw [e2] at h2
    cases h1; cases h2
    exact hle

/-- Witness of C2 on `[1, 2, 4]` at `p1 = 50`, `p2 = 90`. -/
theorem Percentile_monotone_witness :
    (∀ v1 v2 : ℚ, Percentile [1, 2, 4] 50 = .ok v1 → Percentile [1, 2, 4] 90 = .ok v2 → v1 ≤ v2) ∧
    (([1, 2, 4] : List ℚ) ≠ [] →
      ∃ v1 v2 : ℚ, Percentile [1, 2, 4] 50 = .ok v1 ∧ Percentile [1, 2, 4] 90 = .ok v2 ∧ v1 ≤ v2) :=
  Percentile_monotone [1, 2, 4] (by norm_num [List.Sorted]) 50 90 (by norm_num) (by norm_num)
    (by norm_num)

theorem goTrunc_nil (p : ℚ) (h0 : 0 ≤ p) (h100 : p < 100) : goTrunc (percentileK 0 p) = 0 := by
  have hk : percentileK 0 p = -(p / 100) := by
    unfold percentileK; norm_num
  rw [hk]
  unfold goTrunc
  split_ifs with h
  · have : -(p / 100) = 0 := le_antisymm (by linarith) h
    rw [this]; simp
  · rw [Int.ceil_eq_iff]
    constructor
    · push_cast; linarith
    · push_cast; linarith

theorem Percentile_nil_lt (p : ℚ) (h0 : 0 ≤ p) (h100 : p < 100) :
    Percentile [] p = .error ⟨0, 0⟩ := by
  unfold Percentile
  simp only [List.length_nil, goTrunc_nil p h0 h100, index_nil]
  rfl

theorem Percentile_nil_hundred : Percentile [] 100 = .error ⟨-1, 0⟩ := by
  have hk : percentileK 0 100 = -1 := by
    unfold percentileK; norm_num
  have ht : goTrunc (-1 : ℚ) = -1 := by
    unfold goTrunc
    rw [if_neg (by norm_num)]
    rw [Int.ceil_eq_iff]
    constructor <;> norm_num
  unfold Percentile
  simp only [List.length_nil, hk, ht, index_nil]
  rfl

/-- C10: on a non-empty list and `0 ≤ p ≤ 100` the index `f = trunc((p/100)*(n-1))` lies
in `[0, n-1]`, every slice read of `Percentile` is in bounds (so `numbers[f+1]` is read
only when `f+1 < n`) and a value is returned. On the empty list `Percentile` stops with
an index error: at index `0` for every `p < 100`, among them the `90, 95, 99` of
`PercentileCal`, whose `minMax` has already returned `(-1, -1)`; at index `-1` for
`p = 100`. -/
theorem Percentile_index_in_bounds (numbers : List ℚ) (p : ℚ) (h0 : 0 ≤ p) (h100 : p ≤ 100) :
    (numbers ≠ [] →
      0 ≤ goTrunc (percentileK numbers.length p) ∧
      goTrunc (percentileK numbers.length p) ≤ (numbers.length : ℤ) - 1 ∧
      (∀ i ∈ PercentileReads numbers p, 0 ≤ i ∧ i < (numbers.length : ℤ)) ∧
      ∃ v : ℚ, Percentile numbers p = .ok v) ∧
    (p < 100 → Percentile [] p = .error ⟨0, 0⟩) ∧
    Percentile [] 100 = .error ⟨-1, 0⟩ ∧
    minMax [] = (-1, -1) ∧
    PercentileCal [] = .error ⟨0, 0⟩ := by
  refine ⟨?_, fun h => Percentile_nil_lt p h0 h, Percentile_nil_hundred, rfl, ?_⟩
  · intro hne
    have hn : 1 ≤ numbers.length := by
      cases numbers with
      | nil => exact absurd rfl hne
      | cons a t => simp
    obtain ⟨ht, hf0, hfn⟩ := goTrunc_bounds numbers.length hn _ (percentileK_nonneg _ hn p h0)
      (percentileK_le _ hn p h100)
    refine ⟨by rw [ht]; exact hf0, by rw [ht]; exact hfn, ?_,
      ⟨_, Percentile_eq_lerpAt numbers hn p h0 h100⟩⟩
    intro i hi
    unfold PercentileReads at hi
    rw [ht] at hi
    simp only at hi
    split_ifs at hi with hlt
    · simp only [List.mem_cons, List.mem_singleton, List.not_mem_nil, or_false] at hi
      rcases hi with h | h | h <;> omega
    · simp only [List.mem_singleton] at hi
      omega
  · unfold PercentileCal
    rw [Percentile_nil_lt 90 (by norm_num) (by norm_num)]

/-- Witness of C10 on `[1, 2, 4]` at `p = 99`. -/
theorem Percentile_index_in_bounds_witness :
    (([1, 2, 4] : List ℚ) ≠ [] →
      0 ≤ goTrunc (percentileK ([1, 2, 4] : List ℚ).length 99) ∧
      goTrunc (percentileK ([1, 2, 4] : List ℚ).length 99) ≤ (([1, 2, 4] : List ℚ).length : ℤ) - 1 ∧
      (∀ i ∈ PercentileReads [1, 2, 4] 99, 0 ≤ i ∧ i < (([1, 2, 4] : List ℚ).length : ℤ)) ∧
      ∃ v : ℚ, Percentile [1, 2, 4] 99 = .ok v) ∧
    ((99 : ℚ) < 100 → Percentile [] 99 = .error ⟨0, 0⟩) ∧
    Percentile [] 100 = .error ⟨-1, 0⟩ ∧
    minMax [] = (-1, -1) ∧
    PercentileCal [] = .error ⟨0, 0⟩ :=
  Percentile_index_in_bounds [1, 2, 4] 99 (by norm_num) (by norm_num)

end statreader
namespace statreader

/-! ### C1: the extreme percentiles in float64 -/

theorem roundHalfEven_intCast (z : ℤ) : roundHalfEven (z : ℚ) = z := by
  simp [roundHalfEven]

theorem roundMag_dyadic (n : ℕ) (j : ℤ) (hn0 : 0 < n) (hn : n < 2 ^ 53) (hj : -1074 ≤ j) :
    roundMag ((n : ℚ) * (2 : ℚ) ^ j) = (n : ℚ) * (2 : ℚ) ^ j := by
  have h2 : (0 : ℚ) < (2 : ℚ) ^ j := zpow_pos (by norm_num) j
  have hq : (0 : ℚ) < (n : ℚ) * (2 : ℚ) ^ j := mul_pos (by exact_mod_cast hn0) h2
  have hlt : (n : ℚ) * (2 : ℚ) ^ j < ((2 : ℕ) : ℚ) ^ (53 + j) := by
    have : ((2 : ℕ) : ℚ) ^ (53 + j) = (2 : ℚ) ^ (53 : ℕ) * (2 : ℚ) ^ j := by
      rw [zpow_add₀ (by norm_num)]
      norm_num
    rw [this]
    have hn' : (n : ℚ) < (2 : ℚ) ^ (53 : ℕ) := by exact_mod_cast hn
    exact mul_lt_mul_of_pos_right hn' h2
  have hlog : Int.log 2 ((n : ℚ) * (2 : ℚ) ^ j) < 53 + j :=
    (Int.lt_zpow_iff_log_lt (by norm_num) hq).mp hlt
  set t : ℤ := max (Int.log 2 ((n : ℚ) * (2 : ℚ) ^ j)) (-1022) - 52 with ht
  have htj : t ≤ j := by
    rcases max_cases (Int.log 2 ((n : ℚ) * (2 : ℚ) ^ j)) (-1022) with ⟨h, _⟩ | ⟨h, _⟩ <;>
      (rw [ht, h]; omega)
  obtain ⟨d, hd⟩ := Int.eq_ofNat_of_zero_le (sub_nonneg.mpr htj)
  have hj' : j = t + (d : ℤ) := by omega
  have ht0 : (2 : ℚ) ^ t ≠ 0 := (zpow_pos (by norm_num) t).ne'
  have hdiv : (n : ℚ) * (2 : ℚ) ^ j / (2 : ℚ) ^ t = (((n * 2 ^ d : ℕ) : ℤ) : ℚ) := by
    rw [hj', zpow_add₀ (by norm_num), zpow_natCast]
    push_cast
    field_simp
    ring
  unfold roundMag ulp
  rw [← ht, hdiv, roundHalfEven_intCast, ← hdiv]
  field_simp

theorem roundQ_dyadic (n : ℕ) (j : ℤ) (hn : n < 2 ^ 53) (hj : -1074 ≤ j) :
    roundQ ((n : ℚ) * (2 : ℚ) ^ j) = (n : ℚ) * (2 : ℚ) ^ j := by
  rcases Nat.eq_zero_or_pos n with h0 | h0
  · subst h0; simp [roundQ]
  · have h2 : (0 : ℚ) < (2 : ℚ) ^ j := zpow_pos (by norm_num) j
    have hq : (0 : ℚ) < (n : ℚ) * (2 : ℚ) ^ j := mul_pos (by exact_mod_cast h0) h2
    unfold roundQ
    rw [if_neg hq.ne', if_pos hq, roundMag_dyadic n j h0 hn hj]

theorem roundQ_neg (q : ℚ) : roundQ (-q) = -roundQ q := by
  unfold roundQ
  rcases lt_trichotomy q 0 with h | h | h
  · have h1 : ¬ (-q = 0) := by intro h'; linarith
    have h2 : (0 : ℚ) < -q := by linarith
    have h3 : ¬ (q = 0) := h.ne
    have h4 : ¬ ((0 : ℚ) < q) := by linarith
    rw [if_neg h1, if_pos h2, if_neg h3, if_neg h4, neg_neg]
  · subst h; simp
  · have h1 : ¬ (-q = 0) := by intro h'; linarith
    have h2 : ¬ ((0 : ℚ) < -q) := by linarith
    have h3 : ¬ (q = 0) := h.ne'
    rw [if_neg h1, if_neg h2, if_neg h3, if_pos h, neg_neg]

theorem two_pow_1024_pos : (0 : ℚ) < (2 : ℚ) ^ 1024 := by positivity

theorem round_eq_finite (q : ℚ) (h : roundQ q = q) (h1 : q < (2 : ℚ) ^ 1024)
    (h2 : -(2 : ℚ) ^ 1024 < q) : F64.round q = .finite q := by
  unfold F64.round
  rw [h, if_neg (not_le.mpr h1), if_neg (not_le.mpr h2)]

theorem round_zero : F64.round 0 = .finite 0 :=
  round_eq_finite 0 (by simp [roundQ]) two_pow_1024_pos (neg_neg_of_pos two_pow_1024_pos)

theorem round_nat (n : ℕ) (hn : n < 2 ^ 53) : F64.round (n : ℚ) = .finite (n : ℚ) := by
  have h : roundQ (n : ℚ) = (n : ℚ) := by
    have := roundQ_dyadic n 0 hn (by norm_num)
    simpa using this
  have h1 : (n : ℚ) < (2 : ℚ) ^ 53 := by exact_mod_cast hn
  have h2 : (2 : ℚ) ^ 53 ≤ (2 : ℚ) ^ 1024 := pow_le_pow_right₀ (by norm_num) (by norm_num)
  have h0 : (0 : ℚ) ≤ (n : ℚ) := Nat.cast_nonneg n
  exact round_eq_finite _ h (lt_of_lt_of_le h1 h2)
    (lt_of_lt_of_le (neg_neg_of_pos two_pow_1024_pos) h0)

theorem round_finite_iff (q : ℚ) :
    F64.round q = .finite q ↔ roundQ q = q ∧ q < (2 : ℚ) ^ 1024 ∧ -(2 : ℚ) ^ 1024 < q := by
  constructor
  · intro h
    unfold F64.round at h
    split_ifs at h with h1 h2
    simp only [F64.finite.injEq] at h
    rw [h] at h1 h2
    exact ⟨h, not_le.mp h1, not_le.mp h2⟩
  · rintro ⟨h, h1, h2⟩
    exact round_eq_finite q h h1 h2

theorem round_neg (q : ℚ) (h : F64.round q = .finite q) : F64.round (-q) = .finite (-q) := by
  obtain ⟨h0, h1, h2⟩ := (round_finite_iff q).mp h
  exact round_eq_finite _ (by rw [roundQ_neg, h0]) (by
    have := neg_lt_neg h2
    rwa [neg_neg] at this) (neg_lt_neg h1)

theorem mul_finite (a b : ℚ) : F64.mul (.finite a) (.finite b) = F64.round (a * b) := rfl

theorem add_finite (a b : ℚ) : F64.add (.finite a) (.finite b) = F64.round (a + b) := rfl

theorem sub_finite (a b : ℚ) : F64.sub (.finite a) (.finite b) = F64.round (a + -b) := rfl

theorem fma_finite (a b c : ℚ) :
    F64.fma (.finite a) (.finite b) (.finite c) = F64.round (a * b + c) := rfl

theorem div100_finite (a : ℚ) : F64.div100 (.finite a) = F64.round (a / 100) := rfl

theorem toInt_finite (q : ℚ) : F64.toInt (.finite q)
    = if -(2 : ℤ) ^ 63 ≤ goTrunc q ∧ goTrunc q < (2 : ℤ) ^ 63 then some (goTrunc q) else none :=
  rfl

theorem index64_map (S : List ℚ) (i : ℕ) (h : i < S.length) :
    index64 (S.map F64.finite) (i : ℤ) = .ok (.finite (S.getD i 0)) := by
  have h' : i < (S.map F64.finite).length := by simpa using h
  unfold index64
  rw [if_pos ⟨by omega, by exact_mod_cast h'⟩]
  simp only [Int.toNat_ofNat]
  rw [List.getD_eq_getElem _ _ h', List.getD_eq_getElem _ _ h, List.getElem_map]

theorem goTrunc_natCast (n : ℕ) : goTrunc (n : ℚ) = (n : ℤ) := by
  unfold goTrunc
  rw [if_pos (Nat.cast_nonneg n)]
  exact Int.floor_natCast n

theorem toInt_nat (n : ℕ) (hn : n < 2 ^ 53) : F64.toInt (.finite (n : ℚ)) = some (n : ℤ) := by
  rw [toInt_finite, goTrunc_natCast, if_pos]
  constructor
  · have : (0 : ℤ) ≤ (n : ℤ) := Int.natCast_nonneg n
    omega
  · have : (n : ℤ) < 2 ^ 53 := by exact_mod_cast hn
    omega

theorem ofInt_nat (n : ℕ) (hn : n < 2 ^ 53) : F64.ofInt (n : ℤ) = .finite (n : ℚ) := by
  unfold F64.ofInt
  rw [Int.cast_natCast]
  exact round_nat n hn

theorem Percentile64_hundred (fused : Bool) (S : List ℚ) (h1 : 1 ≤ S.length)
    (hlen : S.length ≤ 2 ^ 53) :
    Percentile64 fused (S.map F64.finite) (.finite 100)
      = .ok (.finite (S.getD (S.length - 1) 0)) := by
  obtain ⟨m, hm⟩ : ∃ m : ℕ, S.length = m + 1 := ⟨S.length - 1, by omega⟩
  have hm53 : m < 2 ^ 53 := by omega
  have hd : F64.div100 (.finite 100) = .finite ((1 : ℕ) : ℚ) := by
    have : (100 : ℚ) / 100 = ((1 : ℕ) : ℚ) := by norm_num
    rw [div100_finite, this]
    exact round_nat 1 (by norm_num)
  have hlen' : ((((S.map F64.finite).length : ℕ) : ℤ) - 1) = (m : ℤ) := by
    rw [List.length_map, hm]; push_cast; ring
  have hk : F64.mul (.finite ((1 : ℕ) : ℚ)) (.finite (m : ℚ)) = .finite (m : ℚ) := by
    rw [mul_finite, Nat.cast_one, one_mul]
    exact round_nat m hm53
  unfold Percentile64
  simp only [hd, hlen', ofInt_nat m hm53, hk, toInt_nat m hm53]
  rw [if_neg (by rw [List.length_map, hm]; push_cast; omega)]
  rw [index64_map S m (by omega), hm]
  simp

theorem Percentile64_zero (fused : Bool) (S : List ℚ) (h2 : 2 ≤ S.length)
    (hlen : S.length ≤ 2 ^ 53) (h0 : F64.round (S.getD 0 0) = .finite (S.getD 0 0)) :
    Percentile64 fused (S.map F64.finite) (.finite 0)
      = .ok (match F64.sub (.finite (S.getD 1 0)) (.finite (S.getD 0 0)) with
          | .finite _ => .finite (S.getD 0 0)
          | _ => .nan) := by
  obtain ⟨m, hm⟩ : ∃ m : ℕ, S.length = m + 1 := ⟨S.length - 1, by omega⟩
  have hm53 : m < 2 ^ 53 := by omega
  have hd : F64.div100 (.finite 0) = .finite 0 := by
    rw [div100_finite, zero_div]
    exact round_zero
  have hlen' : ((((S.map F64.finite).length : ℕ) : ℤ) - 1) = (m : ℤ) := by
    rw [List.length_map, hm]; push_cast; ring
  have hk : F64.mul (.finite 0) (.finite (m : ℚ)) = .finite 0 := by
    rw [mul_finite, zero_mul]
    exact round_zero
  have ht : F64.toInt (.finite 0) = some 0 := by
    have := toInt_nat 0 (by norm_num)
    simpa using this
  have ho : F64.ofInt 0 = .finite 0 := by
    have := ofInt_nat 0 (by norm_num)
    simpa using this
  have hc : F64.sub (.finite 0) (.finite 0) = .finite 0 := by
    rw [sub_finite, neg_zero, add_zero]
    exact round_zero
  have i0 := index64_map S 0 (by omega)
  have i1 := index64_map S 1 (by omega)
  simp only [Nat.cast_zero, Nat.cast_one] at i0 i1
  unfold Percentile64
  simp only [hd, hlen', ofInt_nat m hm53, hk, ht, ho, hc]
  rw [if_pos (by rw [List.length_map, hm]; push_cast; omega)]
  simp only [zero_add, i0, i1]
  cases hs : F64.sub (.finite (S.getD 1 0)) (.finite (S.getD 0 0)) with
  | finite d =>
    have hm0 : F64.mul (.finite 0) (.finite d) = .finite 0 := by
      rw [mul_finite, zero_mul]; exact round_zero
    cases fused
    · simp only [Bool.false_eq_true, if_false, hm0, add_finite, add_zero, h0]
    · simp only [if_true, fma_finite, zero_mul, zero_add, h0]
  | posInf =>
    cases fused <;> simp [F64.fma, F64.mul, F64.add, F64.infTimes]
  | negInf =>
    cases fused <;> simp [F64.fma, F64.mul, F64.add, F64.infTimes]
  | nan =>
    cases fused <;> simp [F64.fma, F64.mul, F64.add]

theorem two_pow_1023_lt : (2 : ℚ) ^ 1023 < (2 : ℚ) ^ 1024 :=
  pow_lt_pow_right₀ (by norm_num) (by norm_num)

theorem roundQ_two_pow (k : ℕ) : roundQ ((2 : ℚ) ^ k) = (2 : ℚ) ^ k := by
  have := roundQ_dyadic 1 (k : ℤ) (by norm_num) (by omega)
  rwa [Nat.cast_one, one_mul, zpow_natCast] at this

theorem round_two_pow_1023 : F64.round ((2 : ℚ) ^ 1023) = .finite ((2 : ℚ) ^ 1023) := by
  have h : roundQ ((2 : ℚ) ^ 1023) = (2 : ℚ) ^ 1023 := roundQ_two_pow 1023
  have hp : (0 : ℚ) < (2 : ℚ) ^ 1023 := by positivity
  exact round_eq_finite _ h two_pow_1023_lt
    (lt_trans (neg_neg_of_pos two_pow_1024_pos) hp)

theorem sub_overflows :
    F64.sub (.finite ((2 : ℚ) ^ 1023)) (.finite (-(2 : ℚ) ^ 1023)) = .posInf := by
  have e : (2 : ℚ) ^ 1023 + -(-(2 : ℚ) ^ 1023) = (2 : ℚ) ^ 1024 := by
    rw [neg_neg, ← two_mul, ← pow_succ']
  have h : roundQ ((2 : ℚ) ^ 1024) = (2 : ℚ) ^ 1024 := roundQ_two_pow 1024
  rw [sub_finite, e]
  unfold F64.round
  rw [h, if_pos (le_refl _)]

theorem Percentile64_zero_pair (fused : Bool) (a b : ℚ) (ha : F64.round a = .finite a)
    (hsub : F64.sub (.finite b) (.finite a) = .posInf) :
    Percentile64 fused [.finite a, .finite b] (.finite 0) = .ok .nan := by
  have := Percentile64_zero fused [a, b] (by simp) (by simp) (by simpa using ha)
  simp only [List.map_cons, List.map_nil, List.getD_cons_zero, List.getD_cons_succ,
    hsub] at this
  exact this

/-- C1, as stated, fails in float64: on the ascending two-sample list
`[-2^1023, 2^1023]` of finite float64 values the difference of the two overflows to
`+Inf`, and `Percentile` at `0` returns `0 * (+Inf)` added to the first sample, which is
NaN and not the first sample, with or without a fused multiply-add. -/
theorem Percentile64_zero_is_nan :
    F64.round (-(2 : ℚ) ^ 1023) = .finite (-(2 : ℚ) ^ 1023) ∧
    F64.round ((2 : ℚ) ^ 1023) = .finite ((2 : ℚ) ^ 1023) ∧
    List.Sorted (· ≤ ·) [-(2 : ℚ) ^ 1023, (2 : ℚ) ^ 1023] ∧
    Percentile64 false [.finite (-(2 : ℚ) ^ 1023), .finite ((2 : ℚ) ^ 1023)] (.finite 0)
      = .ok .nan ∧
    Percentile64 true [.finite (-(2 : ℚ) ^ 1023), .finite ((2 : ℚ) ^ 1023)] (.finite 0)
      = .ok .nan ∧
    Percentile64 false [.finite (-(2 : ℚ) ^ 1023), .finite ((2 : ℚ) ^ 1023)] (.finite 0)
      ≠ .ok (.finite (-(2 : ℚ) ^ 1023)) ∧
    Percentile64 true [.finite (-(2 : ℚ) ^ 1023), .finite ((2 : ℚ) ^ 1023)] (.finite 0)
      ≠ .ok (.finite (-(2 : ℚ) ^ 1023)) := by
  have hneg := round_neg _ round_two_pow_1023
  have hp : (0 : ℚ) < (2 : ℚ) ^ 1023 := by positivity
  have key : ∀ fused : Bool,
      Percentile64 fused [.finite (-(2 : ℚ) ^ 1023), .finite ((2 : ℚ) ^ 1023)] (.finite 0)
        = .ok .nan :=
    fun fused => Percentile64_zero_pair fused _ _ hneg sub_overflows
  refine ⟨hneg, round_two_pow_1023, ?_, key false, key true, ?_, ?_⟩
  · simp only [List.sorted_cons, List.mem_singleton, forall_eq, List.sorted_nil,
      List.not_mem_nil, false_implies, implies_true, and_true]
    exact le_trans (neg_nonpos.mpr hp.le) hp.le
  · rw [key false]
    intro h
    cases h
  · rw [key true]
    intro h
    cases h

/-- C1, amended: on an ascending list `S` of finite float64 samples with at least two
elements (and at most `2^53`, more than any slice can hold), `Percentile` at `100`
returns the last element, which is the maximum; `Percentile` at `0` returns the first
element, which is the minimum, when the float64 difference `S[1] - S[0]` is finite, and
NaN when that difference overflows. This holds with and without a fused
multiply-add. -/
theorem Percentile64_extremes (fused : Bool) (S : List ℚ) (hs : S.Sorted (· ≤ ·))
    (hfl : ∀ x ∈ S, F64.round x = .finite x) (h2 : 2 ≤ S.length)
    (hlen : S.length ≤ 2 ^ 53) :
    ∃ lo hi : ℚ, S.head? = some lo ∧ S.getLast? = some hi ∧
      (∀ x ∈ S, lo ≤ x ∧ x ≤ hi) ∧
      Percentile64 fused (S.map F64.finite) (.finite 100) = .ok (.finite hi) ∧
      Percentile64 fused (S.map F64.finite) (.finite 0)
        = .ok (match F64.sub (.finite (S.getD 1 0)) (.finite lo) with
            | .finite _ => .finite lo
            | _ => .nan) := by
  have hne : S ≠ [] := by
    intro h; rw [h] at h2; simp at h2
  have h0mem : S.getD 0 0 ∈ S := by
    rw [List.getD_eq_getElem _ _ (by omega : 0 < S.length)]
    exact List.getElem_mem _
  refine ⟨S.getD 0 0, S.getD (S.length - 1) 0, ?_, ?_, ?_,
    Percentile64_hundred fused S (by omega) hlen,
    Percentile64_zero fused S h2 hlen (hfl _ h0mem)⟩
  · cases S with
    | nil => exact absurd rfl hne
    | cons a t => simp
  · rw [List.getLast?_eq_getElem?, List.getD_eq_getElem?_getD]
    have : S.length - 1 < S.length := by omega
    simp [List.getElem?_eq_getElem this]
  · intro x hx
    obtain ⟨i, hi, rfl⟩ := List.getElem_of_mem hx
    constructor
    · have := sorted_getD_le S hs 0 i (Nat.zero_le _) hi
      rwa [List.getD_eq_getElem _ _ hi] at this
    · have := sorted_getD_le S hs i (S.length - 1) (by omega) (by omega)
      rwa [List.getD_eq_getElem _ _ hi] at this

/-- Witness of C1 amended on the three-sample list `[1, 2, 4]`, unfused. -/
theorem Percentile64_extremes_witness :
    ∃ lo hi : ℚ, ([1, 2, 4] : List ℚ).head? = some lo ∧ ([1, 2, 4] : List ℚ).getLast? = some hi ∧
      (∀ x ∈ ([1, 2, 4] : List ℚ), lo ≤ x ∧ x ≤ hi) ∧
      Percentile64 false (([1, 2, 4] : List ℚ).map F64.finite) (.finite 100)
        = .ok (.finite hi) ∧
      Percentile64 false (([1, 2, 4] : List ℚ).map F64.finite) (.finite 0)
        = .ok (match F64.sub (.finite (([1, 2, 4] : List ℚ).getD 1 0)) (.finite lo) with
            | .finite _ => .finite lo
            | _ => .nan) :=
  Percentile64_extremes false [1, 2, 4] (by norm_num [List.Sorted]) (by
      intro x hx
      simp only [List.mem_cons, List.mem_singleton, List.not_mem_nil, or_false] at hx
      rcases hx with rfl | rfl | rfl
      · simpa using round_nat 1 (by norm_num)
      · simpa using round_nat 2 (by norm_num)
      · simpa using round_nat 4 (by norm_num))
    (by simp) (by simp)

end statreader

namespace redisbench

theorem Uint64_PutUint64 (v : ℕ) (hv : v < 2 ^ 64) : Uint64 (PutUint64 v) = v := by
  unfold Uint64 PutUint64
  simp only [List.getD_cons_zero, List.getD_cons_succ]
  norm_num at hv ⊢
  omega

theorem PutUint64_length (v : ℕ) : (PutUint64 v).length = 8 := rfl

theorem encode_length (vs : List ℕ) : ((vs.map PutUint64).flatten).length = 8 * vs.length := by
  induction vs with
  | nil => rfl
  | cons v t ih =>
    simp only [List.map_cons, List.flatten_cons, List.length_append, PutUint64_length, ih,
      List.length_cons]
    omega

theorem fileWriter_eq (arrChan : List (List ℕ)) (file : List ℕ) :
    fileWriter arrChan file = file ++ ((arrChan.flatten).map PutUint64).flatten := by
  induction arrChan generalizing file with
  | nil => simp [fileWriter]
  | cons b t ih =>
    have : fileWriter (b :: t) file = fileWriter t (binaryWrite file b) := rfl
    rw [this, ih]
    simp [binaryWrite, List.append_assoc]

theorem binaryRead_encode (vs : List ℕ) (hv : ∀ v ∈ vs, v < 2 ^ 64) (rest : List ℕ) :
    binaryRead vs.length ((vs.map PutUint64).flatten ++ rest) = vs := by
  induction vs with
  | nil => rfl
  | cons v t ih =>
    have h8 : (PutUint64 v).length = 8 := rfl
    have e : (((v :: t).map PutUint64).flatten ++ rest)
        = PutUint64 v ++ ((t.map PutUint64).flatten ++ rest) := by
      simp [List.append_assoc]
    rw [e]
    simp only [List.length_cons, binaryRead]
    rw [List.take_left' h8, List.drop_left' h8, Uint64_PutUint64 v (hv v (by simp)),
      ih (fun x hx => hv x (by simp [hx]))]

/-- C3: sample-log round trip. After `fileWriter` has appended a sequence of batches of
64-bit patterns to an empty log, the log is `8 * (total number of samples)` bytes long
and the slice `fileReader` decodes from it, before sorting, is the concatenation of the
batches in the order received. -/
theorem sample_log_round_trip (arrChan : List (List ℕ))
    (hbits : ∀ arr ∈ arrChan, ∀ v ∈ arr, v < 2 ^ 64) :
    (fileWriter arrChan []).length = 8 * (arrChan.map List.length).sum ∧
    fileReaderData (fileWriter arrChan []) = arrChan.flatten := by
  have hlen : (fileWriter arrChan []).length = 8 * arrChan.flatten.length := by
    rw [fileWriter_eq, List.nil_append, encode_length]
  refine ⟨by rw [hlen, List.length_flatten], ?_⟩
  unfold fileReaderData
  rw [hlen, Nat.mul_div_cancel_left _ (by norm_num : 0 < 8), fileWriter_eq, List.nil_append]
  have := binaryRead_encode arrChan.flatten (by
    intro v hv
    obtain ⟨arr, harr, hmem⟩ := List.mem_flatten.mp hv
    exact hbits arr harr v hmem) []
  rwa [List.append_nil] at this

/-- Witness of C3 on two batches, one holding the patterns of `1.0` and `-0.0`. -/
theorem sample_log_round_trip_witness :
    (fileWriter [[4607182418800017408, 9223372036854775808], [0]] []).length
        = 8 * ([[4607182418800017408, 9223372036854775808], [0]].map List.length).sum ∧
    fileReaderData (fileWriter [[4607182418800017408, 9223372036854775808], [0]] [])
        = [[4607182418800017408, 9223372036854775808], [0]].flatten :=
  sample_log_round_trip [[4607182418800017408, 9223372036854775808], [0]] (by
    intro arr harr v hv
    simp only [List.mem_cons, List.mem_singleton, List.not_mem_nil, or_false] at harr
    rcases harr with rfl | rfl
    · simp only [List.mem_cons, List.mem_singleton, List.not_mem_nil, or_false] at hv
      rcases hv with rfl | rfl <;> norm_num
    · simp only [List.mem_singleton] at hv
      subst hv; norm_num)

end redisbench

namespace redisbench

/-! ### C4: total operations of a node -/

theorem wrapInt64_of_range (x : ℤ) (h0 : -(2 ^ 63) ≤ x) (h1 : x < 2 ^ 63) : wrapInt64 x = x := by
  unfold wrapInt64
  norm_num at h0 h1 ⊢
  omega

/-- C4, as stated, fails: for `ClientNum = 2^32` and `TestTimes = 2^31` the product
wraps around and both NodeResults carry `TotalTimes = -2^63`, not `2^63`. -/
theorem totalTimes_wraps :
    (1 : ℤ) ≤ 4294967296 ∧ (1 : ℤ) ≤ 2147483648 ∧
    (result 4294967296 2147483648 none 0 1).TotalTimes = -9223372036854775808 ∧
    (resultRead 4294967296 2147483648 none 2 3).TotalTimes = -9223372036854775808 ∧
    (result 4294967296 2147483648 none 0 1).TotalTimes ≠ 4294967296 * 2147483648 ∧
    (resultRead 4294967296 2147483648 none 2 3).TotalTimes ≠ 4294967296 * 2147483648 := by
  decide

/-- C4, amended: for a standalone run with `ClientNum, TestTimes ≥ 1` whose product is
below `2^63`, the write-phase and the read-phase NodeResult both have `TotalTimes`
equal to `ClientNum * TestTimes`. -/
theorem totalTimes_exact (ClientNum TestTimes t1 t2 t3 t4 : ℤ) (hC : 1 ≤ ClientNum)
    (hT : 1 ≤ TestTimes) (hfit : ClientNum * TestTimes < 2 ^ 63) :
    (result ClientNum TestTimes none t1 t2).TotalTimes = ClientNum * TestTimes ∧
    (resultRead ClientNum TestTimes none t3 t4).TotalTimes = ClientNum * TestTimes := by
  have hpos : 0 ≤ ClientNum * TestTimes := mul_nonneg (by omega) (by omega)
  have h0 : -(2 ^ 63 : ℤ) ≤ ClientNum * TestTimes := le_trans (by norm_num) hpos
  have e : totalTimes ClientNum TestTimes = ClientNum * TestTimes := by
    unfold totalTimes
    rw [wrapInt64_of_range _ h0 hfit, wrapInt64_of_range _ h0 hfit]
  exact ⟨e, e⟩

/-- Witness of C4 amended at `ClientNum = 50`, `TestTimes = 10000`. -/
theorem totalTimes_exact_witness :
    (result 50 10000 none 0 7).TotalTimes = 50 * 10000 ∧
    (resultRead 50 10000 none 9 12).TotalTimes = 50 * 10000 :=
  totalTimes_exact 50 10000 0 7 9 12 (by norm_num) (by norm_num) (by norm_num)

/-! ### C7: what a node settles in multi-node mode -/

/-- C7, as stated, fails: a worker node (order 2) with distinct write-phase and
read-phase NodeResults transmits the write-phase one only, and the master settles its
write-phase one only and computes one summary. -/
theorem read_phase_not_settled :
    transmitted (report (some ⟨2, false⟩)
      (result 2 3 (some ⟨2, false⟩) 0 10) (resultRead 2 3 (some ⟨2, false⟩) 20 30))
      = [result 2 3 (some ⟨2, false⟩) 0 10] ∧
    resultRead 2 3 (some ⟨2, false⟩) 20 30 ∉ transmitted (report (some ⟨2, false⟩)
      (result 2 3 (some ⟨2, false⟩) 0 10) (resultRead 2 3 (some ⟨2, false⟩) 20 30)) ∧
    resultRead 2 3 (some ⟨1, true⟩) 20 30 ∉ selfSettled (report (some ⟨1, true⟩)
      (result 2 3 (some ⟨1, true⟩) 0 10) (resultRead 2 3 (some ⟨1, true⟩) 20 30)) ∧
    summaries (report (some ⟨1, true⟩)
      (result 2 3 (some ⟨1, true⟩) 0 10) (resultRead 2 3 (some ⟨1, true⟩) 20 30)) = 1 := by
  decide

/-- C7, amended: in multi-node mode the settlement is run once, for the write phase. A
worker node transmits exactly its write-phase NodeResult, the master settles exactly its
own write-phase NodeResult and computes exactly one summary; the read-phase NodeResult
is neither transmitted nor settled. -/
theorem settlement_write_phase_only (m : MultiNode) (r rr : NodeResult) :
    transmitted (report (some m) r rr) = (if m.IsMaster then [] else [r]) ∧
    selfSettled (report (some m) r rr) = (if m.IsMaster then [r] else []) ∧
    summaries (report (some m) r rr) = (if m.IsMaster then 1 else 0) := by
  cases hm : m.IsMaster <;> simp [report, hm, transmitted, selfSettled, summaries]

/-! ### C8: read endpoints -/

theorem createReadClientsLoop_eq (ping : String → Bool) (addrs : List String)
    (clients : List Client) :
    createReadClientsLoop ping addrs clients
      = if addrs.all ping then clients ++ addrs.map (fun a => (⟨[a]⟩ : Client)) else [] := by
  induction addrs generalizing clients with
  | nil => simp [createReadClientsLoop]
  | cons a t ih =>
    unfold createReadClientsLoop
    cases ha : ping a
    · simp [ha]
    · simp [ha, ih, List.append_assoc]

/-- C8, as stated, fails: with addresses `a, b` of which only `b` fails its ping,
`createReadClients` returns no client at all, not the client of `a`. -/
theorem createReadClients_drops_all :
    createReadClients ["a", "b"] (fun s => s == "a") = [] ∧
    createReadClients ["a", "b"] (fun s => s == "a")
      ≠ (["a", "b"].filter (fun s => s == "a")).map (fun a => (⟨[a]⟩ : Client)) := by
  decide

/-- C8, amended: `createReadClients` returns a client for every configured address, in
configured order, when every liveness ping succeeds; when some ping fails it returns
nil, so that no endpoint is left in the round-robin set. -/
theorem createReadClients_all_or_nothing (addrArr : List String) (ping : String → Bool) :
    createReadClients addrArr ping
      = if addrArr.all ping then addrArr.map (fun a => (⟨[a]⟩ : Client)) else [] := by
  unfold createReadClients
  rw [createReadClientsLoop_eq]
  simp

end redisbench

namespace redisbench

/-! ### C9: what a worker does with a store error -/

theorem split_at_last {α : Type} (pre post l : List α) (x y : α)
    (h : pre ++ x :: post = l ++ [y]) : (post = [] ∧ x = y) ∨ x ∈ l := by
  rcases List.eq_nil_or_concat post with hp | ⟨post', z, hp⟩
  · subst hp
    have := List.append_inj' h rfl
    left
    exact ⟨rfl, by simpa using this.2⟩
  · subst hp
    right
    have h' : (pre ++ x :: post') ++ [z] = l ++ [y] := by
      simpa [List.append_assoc] using h
    have := (List.append_inj' h' rfl).1
    rw [← this]
    simp

theorem executeSetLoop_fail_fast (id : ℕ) (val : String) (resp : ℕ → Option Err) (n : ℕ) :
    ∀ (i : ℕ) (calls : List (StoreOp × Option Err)), (∀ c ∈ calls, c.2 = none) →
      ∀ (pre post : List (StoreOp × Option Err)) (op : StoreOp) (e : Err),
        (executeSetLoop id val resp n i calls).calls = pre ++ (op, some e) :: post →
        post = [] ∧ (executeSetLoop id val resp n i calls).fatal = some e := by
  induction n with
  | zero =>
    intro i calls hc pre post op e h
    simp only [executeSetLoop] at h
    have := hc (op, some e) (by rw [h]; simp)
    simp at this
  | succ n ih =>
    intro i calls hc pre post op e h
    unfold executeSetLoop at h ⊢
    cases hr : resp i with
    | none =>
      simp only [hr, FatalErr] at h ⊢
      refine ih (i + 1) _ ?_ pre post op e h
      intro c hcm
      rcases List.mem_append.mp hcm with h1 | h1
      · exact hc c h1
      · simp only [List.mem_singleton] at h1
        rw [h1]
    | some e' =>
      simp only [hr, FatalErr] at h ⊢
      rcases split_at_last pre post calls (op, some e) _ h.symm with ⟨hp, hx⟩ | hmem
      · refine ⟨hp, ?_⟩
        have := (Prod.mk.inj hx).2
        simpa using this.symm
      · have := hc _ hmem
        simp at this

theorem executeGetLoop_fail_fast (id : ℕ) (resp : ℕ → Option Err) (n : ℕ) :
    ∀ (i : ℕ) (calls : List (StoreOp × Option Err)), (∀ c ∈ calls, c.2 = none) →
      ∀ (pre post : List (StoreOp × Option Err)) (op : StoreOp) (e : Err),
        (executeGetLoop id resp n i calls).calls = pre ++ (op, some e) :: post →
        post = [] ∧ (executeGetLoop id resp n i calls).fatal = some e := by
  induction n with
  | zero =>
    intro i calls hc pre post op e h
    simp only [executeGetLoop] at h
    have := hc (op, some e) (by rw [h]; simp)
    simp at this
  | succ n ih =>
    intro i calls hc pre post op e h
    unfold executeGetLoop at h ⊢
    cases hr : resp i with
    | none =>
      simp only [hr, FatalErr] at h ⊢
      refine ih (i + 1) _ ?_ pre post op e h
      intro c hcm
      rcases List.mem_append.mp hcm with h1 | h1
      · exact hc c h1
      · simp only [List.mem_singleton] at h1
        rw [h1]
    | some e' =>
      simp only [hr, FatalErr] at h ⊢
      rcases split_at_last pre post calls (op, some e) _ h.symm with ⟨hp, hx⟩ | hmem
      · refine ⟨hp, ?_⟩
        have := (Prod.mk.inj hx).2
        simpa using this.symm
      · have := hc _ hmem
        simp at this

theorem executeDelLoop_calls (id : ℕ) (resp : ℕ → Option Err) (n : ℕ) :
    ∀ (i : ℕ) (calls : List (StoreOp × Option Err)),
      (executeDelLoop id resp n i calls).calls
        = calls ++ (List.range' i n).map (fun j => (StoreOp.Del (key id j), resp j)) ∧
      (executeDelLoop id resp n i calls).fatal = none := by
  induction n with
  | zero => intro i calls; simp [executeDelLoop]
  | succ n ih =>
    intro i calls
    unfold executeDelLoop
    obtain ⟨h1, h2⟩ := ih (i + 1) (calls ++ [(StoreOp.Del (key id i), resp i)])
    refine ⟨?_, h2⟩
    rw [h1]
    simp [List.range'_succ, List.append_assoc]

/-- C9, as stated, fails for the delete worker: when the store answers every `Del`
with an error, `executeDel` still issues both of its calls and no error reaches the
fatal handler. -/
theorem executeDel_swallows_errors :
    (executeDel 3 2 (fun _ => some "ERR")).calls
      = [(StoreOp.Del "benchmark-set.3.0", some "ERR"),
         (StoreOp.Del "benchmark-set.3.1", some "ERR")] ∧
    (executeDel 3 2 (fun _ => some "ERR")).fatal = none := by
  decide

/-- C9, amended: fail-fast holds for the write and the read worker. If a store call of
`executeSet` or of `executeGet` is answered with an error, that call is the last one the
worker issues and that error is the one the fatal handler ends the process with. The
delete worker does not look at the answer of `Del`: it issues all of its `times` calls
and never reaches the fatal handler. -/
theorem fail_fast_set_get (id times : ℕ) (val : String) (resp : ℕ → Option Err)
    (pre post : List (StoreOp × Option Err)) (op : StoreOp) (e : Err) :
    ((executeSet id times val resp).calls = pre ++ (op, some e) :: post →
      post = [] ∧ (executeSet id times val resp).fatal = some e) ∧
    ((executeGet id times resp).calls = pre ++ (op, some e) :: post →
      post = [] ∧ (executeGet id times resp).fatal = some e) ∧
    (executeDel id times resp).calls
      = (List.range times).map (fun j => (StoreOp.Del (key id j), resp j)) ∧
    (executeDel id times resp).fatal = none := by
  refine ⟨?_, ?_, ?_, ?_⟩
  · exact executeSetLoop_fail_fast id val resp times 0 [] (by simp) pre post op e
  · exact executeGetLoop_fail_fast id resp times 0 [] (by simp) pre post op e
  · have := (executeDelLoop_calls id resp times 0 []).1
    simpa [executeDel, List.range_eq_range'] using this
  · exact (executeDelLoop_calls id resp times 0 []).2

/-- Witness of C9 amended: worker 3 with four operations, the store failing the one of
index 2. -/
theorem fail_fast_set_get_witness :
    (([] : List (StoreOp × Option Err)) = [] ∧
      (executeSet 3 4 "v" (fun j => if j = 2 then some "ERR" else none)).fatal = some "ERR") ∧
    (([] : List (StoreOp × Option Err)) = [] ∧
      (executeGet 3 4 (fun j => if j = 2 then some "ERR" else none)).fatal = some "ERR") :=
  ⟨(fail_fast_set_get 3 4 "v" (fun j => if j = 2 then some "ERR" else none)
      [(StoreOp.Set "benchmark-set.3.0" "v", none), (StoreOp.Set "benchmark-set.3.1" "v", none)]
      [] (StoreOp.Set "benchmark-set.3.2" "v") "ERR").1 (by decide),
   (fail_fast_set_get 3 4 "v" (fun j => if j = 2 then some "ERR" else none)
      [(StoreOp.Get "benchmark-set.3.0", none), (StoreOp.Get "benchmark-set.3.1", none)]
      [] (StoreOp.Get "benchmark-set.3.2") "ERR").2.1 (by decide)⟩

/-! ### C5: the keys of the three phases -/

theorem key_eq (id i : ℕ) : key id i = "benchmark-set." ++ toString id ++ "." ++ toString i := by
  unfold key keyPrefix
  have : "benchmark-set" ++ "." = "benchmark-set." := by decide
  rw [this]

theorem executeSetLoop_ok (id : ℕ) (val : String) (n : ℕ) :
    ∀ (i : ℕ) (calls : List (StoreOp × Option Err)),
      executeSetLoop id val (fun _ => none) n i calls
        = ⟨calls ++ (List.range' i n).map (fun j => (StoreOp.Set (key id j) val, none)), none⟩ := by
  induction n with
  | zero => intro i calls; simp [executeSetLoop]
  | succ n ih =>
    intro i calls
    unfold executeSetLoop
    simp only [FatalErr]
    rw [ih]
    simp [List.range'_succ, List.append_assoc]

theorem executeGetLoop_ok (id : ℕ) (n : ℕ) :
    ∀ (i : ℕ) (calls : List (StoreOp × Option Err)),
      executeGetLoop id (fun _ => none) n i calls
        = ⟨calls ++ (List.range' i n).map (fun j => (StoreOp.Get (key id j), none)), none⟩ := by
  induction n with
  | zero => intro i calls; simp [executeGetLoop]
  | succ n ih =>
    intro i calls
    unfold executeGetLoop
    simp only [FatalErr]
    rw [ih]
    simp [List.range'_succ, List.append_assoc]

theorem executeSet_keys (id times : ℕ) (val : String) :
    (executeSet id times val (fun _ => none)).keys = (List.range times).map (key id) := by
  unfold executeSet
  rw [executeSetLoop_ok]
  simp [WorkerRun.keys, List.range_eq_range', StoreOp.key, Function.comp_def]

theorem executeGet_keys (id times : ℕ) :
    (executeGet id times (fun _ => none)).keys = (List.range times).map (key id) := by
  unfold executeGet
  rw [executeGetLoop_ok]
  simp [WorkerRun.keys, List.range_eq_range', StoreOp.key, Function.comp_def]

theorem executeDel_keys (id times : ℕ) (resp : ℕ → Option Err) :
    (executeDel id times resp).keys = (List.range times).map (key id) := by
  unfold executeDel WorkerRun.keys
  rw [(executeDelLoop_calls id resp times 0 []).1]
  simp [List.range_eq_range', StoreOp.key, Function.comp_def]

theorem executeSetLoop_keys (id : ℕ) (val : String) (resp : ℕ → Option Err) (n : ℕ) :
    ∀ (i : ℕ) (calls : List (StoreOp × Option Err)), ∃ m, m ≤ n ∧
      (executeSetLoop id val resp n i calls).keys
        = calls.map (fun c => c.1.key) ++ (List.range' i m).map (key id) := by
  induction n with
  | zero => intro i calls; exact ⟨0, le_refl _, by simp [executeSetLoop, WorkerRun.keys]⟩
  | succ n ih =>
    intro i calls
    unfold executeSetLoop
    cases hr : resp i with
    | none =>
      obtain ⟨m, hm, h⟩ := ih (i + 1) (calls ++ [(StoreOp.Set (key id i) val, none)])
      refine ⟨m + 1, by omega, ?_⟩
      simp only [FatalErr]
      rw [h]
      simp [List.range'_succ, StoreOp.key, List.append_assoc]
    | some e =>
      refine ⟨1, by omega, ?_⟩
      simp [FatalErr, WorkerRun.keys, StoreOp.key]

theorem executeGetLoop_keys (id : ℕ) (resp : ℕ → Option Err) (n : ℕ) :
    ∀ (i : ℕ) (calls : List (StoreOp × Option Err)), ∃ m, m ≤ n ∧
      (executeGetLoop id resp n i calls).keys
        = calls.map (fun c => c.1.key) ++ (List.range' i m).map (key id) := by
  induction n with
  | zero => intro i calls; exact ⟨0, le_refl _, by simp [executeGetLoop, WorkerRun.keys]⟩
  | succ n ih =>
    intro i calls
    unfold executeGetLoop
    cases hr : resp i with
    | none =>
      obtain ⟨m, hm, h⟩ := ih (i + 1) (calls ++ [(StoreOp.Get (key id i), none)])
      refine ⟨m + 1, by omega, ?_⟩
      simp only [FatalErr]
      rw [h]
      simp [List.range'_succ, StoreOp.key, List.append_assoc]
    | some e =>
      refine ⟨1, by omega, ?_⟩
      simp [FatalErr, WorkerRun.keys, StoreOp.key]

/-- C5: key derivation is the same in the three phases. Whatever the store answers,
the calls a write, read or delete worker `id` issues address the keys
`"benchmark-set.<id>.<i>"` for `i = 0, 1, ...` in turn (the delete worker all
`TestTimes` of them). With `ClientNum` workers and `TestTimes` operations each, and a
store that fails no write and no read, the keys the write phase sets, the keys the read
phase gets (over any non-empty set of read clients) and the keys the delete phase
deletes (whatever the store answers) are all the list of `"benchmark-set.<id>.<i>"` for
`id < ClientNum`, `i < TestTimes`; worker 3, index 7 is `"benchmark-set.3.7"`. -/
theorem keys_same_in_all_phases (ClientNum TestTimes : ℕ) (val : ℕ → String)
    (c : Client) (cs : List Client) (delResp : ℕ → ℕ → Option Err)
    (id : ℕ) (resp : ℕ → Option Err) :
    (∃ m, m ≤ TestTimes ∧ (executeSet id TestTimes (val id) resp).keys
      = (List.range m).map fun i => "benchmark-set." ++ toString id ++ "." ++ toString i) ∧
    (∃ m, m ≤ TestTimes ∧ (executeGet id TestTimes resp).keys
      = (List.range m).map fun i => "benchmark-set." ++ toString id ++ "." ++ toString i) ∧
    (executeDel id TestTimes resp).keys
      = ((List.range TestTimes).map fun i =>
          "benchmark-set." ++ toString id ++ "." ++ toString i) ∧
    phaseKeys (writePhase ClientNum TestTimes val (fun _ _ => none))
      = ((List.range ClientNum).map fun id => (List.range TestTimes).map fun i =>
          "benchmark-set." ++ toString id ++ "." ++ toString i).flatten ∧
    (∃ runs, readPhase ClientNum TestTimes (c :: cs) (fun _ _ => none) = .ok runs ∧
      phaseKeys (runs.map Prod.snd)
        = phaseKeys (writePhase ClientNum TestTimes val (fun _ _ => none))) ∧
    phaseKeys (deletePhase ClientNum TestTimes delResp)
      = phaseKeys (writePhase ClientNum TestTimes val (fun _ _ => none)) ∧
    key 3 7 = "benchmark-set.3.7" := by
  have hk : ∀ id : ℕ, key id
      = fun i => "benchmark-set." ++ toString id ++ "." ++ toString i :=
    fun id => funext (key_eq id)
  have hw : phaseKeys (writePhase ClientNum TestTimes val (fun _ _ => none))
      = ((List.range ClientNum).map fun id => (List.range TestTimes).map (key id)).flatten := by
    simp [phaseKeys, writePhase, executeSet_keys, Function.comp_def]
  refine ⟨?_, ?_, ?_, ?_, ⟨_, rfl, ?_⟩, ?_, by decide⟩
  · obtain ⟨m, hm, h⟩ := executeSetLoop_keys id (val id) resp TestTimes 0 []
    refine ⟨m, hm, ?_⟩
    unfold executeSet
    rw [h, ← hk]
    simp [List.range_eq_range']
  · obtain ⟨m, hm, h⟩ := executeGetLoop_keys id resp TestTimes 0 []
    refine ⟨m, hm, ?_⟩
    unfold executeGet
    rw [h, ← hk]
    simp [List.range_eq_range']
  · rw [executeDel_keys, hk]
  · rw [hw]
    simp only [hk]
  · rw [hw]
    simp [phaseKeys, executeGet_keys, Function.comp_def]
  · rw [hw]
    simp [phaseKeys, deletePhase, executeDel_keys, Function.comp_def]

end redisbench
namespace redisbench

/-! ### C6: the summary on the master -/

theorem foldl_NodeSettle (rs settled : List NodeResult) :
    rs.foldl NodeSettle settled = settled ++ rs := by
  induction rs generalizing settled with
  | nil => simp
  | cons r t ih => simp [List.foldl_cons, ih, NodeSettle, List.append_assoc]

theorem foldl_min_spec (rs : List NodeResult) (acc : ℤ) :
    (rs.foldl (fun a x => min a x.TsBeg) acc ≤ acc ∧
      ∀ r ∈ rs, rs.foldl (fun a x => min a x.TsBeg) acc ≤ r.TsBeg) ∧
    (rs.foldl (fun a x => min a x.TsBeg) acc = acc ∨
      ∃ r ∈ rs, rs.foldl (fun a x => min a x.TsBeg) acc = r.TsBeg) := by
  induction rs generalizing acc with
  | nil => simp
  | cons r t ih =>
    simp only [List.foldl_cons]
    obtain ⟨⟨h1, h2⟩, h3⟩ := ih (min acc r.TsBeg)
    refine ⟨⟨le_trans h1 (min_le_left _ _), ?_⟩, ?_⟩
    · intro x hx
      rcases List.mem_cons.mp hx with rfl | hx
      · exact le_trans h1 (min_le_right _ _)
      · exact h2 x hx
    · rcases h3 with h3 | ⟨x, hx, h3⟩
      · rcases min_choice acc r.TsBeg with hm | hm
        · left; rw [h3, hm]
        · right; exact ⟨r, by simp, by rw [h3, hm]⟩
      · right; exact ⟨x, by simp [hx], h3⟩

theorem foldl_max_spec (rs : List NodeResult) (acc : ℤ) :
    (acc ≤ rs.foldl (fun a x => max a x.TsEnd) acc ∧
      ∀ r ∈ rs, r.TsEnd ≤ rs.foldl (fun a x => max a x.TsEnd) acc) ∧
    (rs.foldl (fun a x => max a x.TsEnd) acc = acc ∨
      ∃ r ∈ rs, rs.foldl (fun a x => max a x.TsEnd) acc = r.TsEnd) := by
  induction rs generalizing acc with
  | nil => simp
  | cons r t ih =>
    simp only [List.foldl_cons]
    obtain ⟨⟨h1, h2⟩, h3⟩ := ih (max acc r.TsEnd)
    refine ⟨⟨le_trans (le_max_left _ _) h1, ?_⟩, ?_⟩
    · intro x hx
      rcases List.mem_cons.mp hx with rfl | hx
      · exact le_trans (le_max_right _ _) h1
      · exact h2 x hx
    · rcases h3 with h3 | ⟨x, hx, h3⟩
      · rcases max_choice acc r.TsEnd with hm | hm
        · left; rw [h3, hm]
        · right; exact ⟨r, by simp, by rw [h3, hm]⟩
      · right; exact ⟨x, by simp [hx], h3⟩

theorem minTsBeg_spec (rs : List NodeResult) (hne : rs ≠ []) :
    (∀ r ∈ rs, minTsBeg rs ≤ r.TsBeg) ∧ ∃ r ∈ rs, minTsBeg rs = r.TsBeg := by
  cases rs with
  | nil => exact absurd rfl hne
  | cons a t =>
    obtain ⟨⟨h1, h2⟩, h3⟩ := foldl_min_spec t a.TsBeg
    refine ⟨?_, ?_⟩
    · intro r hr
      rcases List.mem_cons.mp hr with rfl | hr
      · exact h1
      · exact h2 r hr
    · rcases h3 with h3 | ⟨x, hx, h3⟩
      · exact ⟨a, by simp, h3⟩
      · exact ⟨x, by simp [hx], h3⟩

theorem maxTsEnd_spec (rs : List NodeResult) (hne : rs ≠ []) :
    (∀ r ∈ rs, r.TsEnd ≤ maxTsEnd rs) ∧ ∃ r ∈ rs, maxTsEnd rs = r.TsEnd := by
  cases rs with
  | nil => exact absurd rfl hne
  | cons a t =>
    obtain ⟨⟨h1, h2⟩, h3⟩ := foldl_max_spec t a.TsEnd
    refine ⟨?_, ?_⟩
    · intro r hr
      rcases List.mem_cons.mp hr with rfl | hr
      · exact h1
      · exact h2 r hr
    · rcases h3 with h3 | ⟨x, hx, h3⟩
      · exact ⟨a, by simp, h3⟩
      · exact ⟨x, by simp [hx], h3⟩

theorem minTsBeg_perm (l1 l2 : List NodeResult) (h : l1.Perm l2) : minTsBeg l1 = minTsBeg l2 := by
  by_cases hne : l1 = []
  · subst hne
    rw [List.Perm.nil_eq h]
  · have hne2 : l2 ≠ [] := fun h2 => hne (by subst h2; exact List.Perm.eq_nil h)
    obtain ⟨a1, ⟨r1, hr1, e1⟩⟩ := minTsBeg_spec l1 hne
    obtain ⟨a2, ⟨r2, hr2, e2⟩⟩ := minTsBeg_spec l2 hne2
    apply le_antisymm
    · rw [e2]; exact a1 r2 (h.mem_iff.mpr hr2)
    · rw [e1]; exact a2 r1 (h.mem_iff.mp hr1)

theorem maxTsEnd_perm (l1 l2 : List NodeResult) (h : l1.Perm l2) : maxTsEnd l1 = maxTsEnd l2 := by
  by_cases hne : l1 = []
  · subst hne
    rw [List.Perm.nil_eq h]
  · have hne2 : l2 ≠ [] := fun h2 => hne (by subst h2; exact List.Perm.eq_nil h)
    obtain ⟨a1, ⟨r1, hr1, e1⟩⟩ := maxTsEnd_spec l1 hne
    obtain ⟨a2, ⟨r2, hr2, e2⟩⟩ := maxTsEnd_spec l2 hne2
    apply le_antisymm
    · rw [e1]; exact a2 r1 (h.mem_iff.mp hr1)
    · rw [e2]; exact a1 r2 (h.mem_iff.mpr hr2)

theorem Summary_perm (l1 l2 : List NodeResult) (h : l1.Perm l2) : Summary l1 = Summary l2 := by
  unfold Summary
  rw [minTsBeg_perm l1 l2 h, maxTsEnd_perm l1 l2 h, (h.map NodeResult.TotalTimes).sum_eq]

/-- C6: the summary of a phase on the master. When the settle calls of the master's own
NodeResult and of the workers' NodeResults have arrived in any order `arrivals`, the
Summary has `TotalTimes` equal to the sum of all their `TotalTimes`, `TotalDur` equal to
the latest `TsEnd` minus the earliest `TsBeg` among them, `TPS` equal to
`round(TotalTimes / (TotalDur in seconds))`, and it is the Summary of every other
arrival order. -/
theorem Summary_merge (own : NodeResult) (workers arrivals : List NodeResult)
    (h : arrivals.Perm (own :: workers)) :
    (Summary (arrivals.foldl NodeSettle [])).TotalTimes
      = own.TotalTimes + (workers.map NodeResult.TotalTimes).sum ∧
    (∃ b ∈ own :: workers, ∃ e ∈ own :: workers,
      (∀ r ∈ own :: workers, b.TsBeg ≤ r.TsBeg ∧ r.TsEnd ≤ e.TsEnd) ∧
      (Summary (arrivals.foldl NodeSettle [])).TotalDur = e.TsEnd - b.TsBeg) ∧
    (Summary (arrivals.foldl NodeSettle [])).TPS
      = round (((Summary (arrivals.foldl NodeSettle [])).TotalTimes : ℚ)
          / (((Summary (arrivals.foldl NodeSettle [])).TotalDur : ℚ) / 1000000000)) ∧
    ∀ arrivals2 : List NodeResult, arrivals2.Perm arrivals →
      Summary (arrivals2.foldl NodeSettle []) = Summary (arrivals.foldl NodeSettle []) := by
  have e : Summary (arrivals.foldl NodeSettle []) = Summary (own :: workers) := by
    rw [foldl_NodeSettle, List.nil_append]
    exact Summary_perm _ _ h
  obtain ⟨a1, ⟨b, hb, e1⟩⟩ := minTsBeg_spec (own :: workers) (by simp)
  obtain ⟨a2, ⟨en, hen, e2⟩⟩ := maxTsEnd_spec (own :: workers) (by simp)
  refine ⟨?_, ⟨b, hb, en, hen, fun r hr => ⟨?_, ?_⟩, ?_⟩, ?_, ?_⟩
  · rw [e]; simp [Summary]
  · rw [← e1]; exact a1 r hr
  · rw [← e2]; exact a2 r hr
  · rw [e, ← e1, ← e2]; rfl
  · rfl
  · intro arrivals2 h2
    rw [foldl_NodeSettle, foldl_NodeSettle, List.nil_append, List.nil_append]
    exact Summary_perm _ _ h2

/-- Witness of C6: the master's own result arrives after the worker's. -/
theorem Summary_merge_witness :
    (Summary (([⟨2, 1500, 500000000, 3000000000, 2500000000⟩,
        ⟨1, 1000, 0, 2000000000, 2000000000⟩] : List NodeResult).foldl NodeSettle [])).TotalTimes
      = (⟨1, 1000, 0, 2000000000, 2000000000⟩ : NodeResult).TotalTimes
        + (([⟨2, 1500, 500000000, 3000000000, 2500000000⟩] : List NodeResult).map
            NodeResult.TotalTimes).sum :=
  (Summary_merge ⟨1, 1000, 0, 2000000000, 2000000000⟩
    [⟨2, 1500, 500000000, 3000000000, 2500000000⟩]
    [⟨2, 1500, 500000000, 3000000000, 2500000000⟩, ⟨1, 1000, 0, 2000000000, 2000000000⟩]
    (List.Perm.swap _ _ _)).1

end redisbench

